import Mathlib

/-!
Verification of the value-based uniqueness engine of the ivy repository
(`ivy/functional/ivy/set.py`: `unique_all`, `unique_inverse`, `unique_values`,
`unique_counts`).  In the excerpted source these four entry points delegate to
`ivy.current_backend(x).unique_*`, and the backend implementations are not part
of the excerpt; the engine below is therefore modelled from the specification
(value-equality predicate of section 4.1, equivalence partitioning of
section 4.2), with the class order chosen to match the docstring examples of
`unique_inverse` and `unique_counts` in `set.py` (ascending value order, NaN
classes last).
-/

namespace Ivy

/-- Modelled from the spec: an array element of a fixed numeric kind
(boolean, integer, or IEEE-754 float).  The float special values the engine
distinguishes are NaN and the two signed zeros; other finite float values are
represented by rationals and the infinities by `inf`.  The backend element
representation is not in the excerpted source. -/
inductive Elem where
  | bool (v : Bool)
  | int (v : Int)
  | zero (neg : Bool)
  | fin (v : ℚ)
  | inf (neg : Bool)
  | nan
deriving DecidableEq

/-- Whether an element is a float NaN. -/
def Elem.isNaN : Elem → Bool
  | .nan => true
  | _ => false

/-- Whether an element is a signed float zero. -/
def Elem.isZero : Elem → Bool
  | .zero _ => true
  | _ => false

/-- Modelled from the spec: the value-equality predicate of section 4.1
(`x_i == x_j` in the docstrings of `set.py`); NaN compares unequal to
everything including itself, the two signed zeros compare equal, everything
else is standard equality.  The backend comparison code is not in the
excerpted source. -/
def equal : Elem → Elem → Bool
  | .nan, _ => false
  | _, .nan => false
  | .zero _, .zero _ => true
  | .bool a, .bool b => a == b
  | .int a, .int b => a == b
  | .fin a, .fin b => a == b
  | .inf a, .inf b => a == b
  | _, _ => false

/-- An equivalence class of the partition: representative value, first
occurrence position in the flattened input, member count (spec section 3,
EquivalenceClass). -/
structure Cls where
  rep : Elem
  first : Nat
  count : Nat
deriving DecidableEq

instance : Inhabited Cls := ⟨⟨.nan, 0, 0⟩⟩

/-- Modelled from the spec: one grouping step of the equivalence partitioning
(section 4.2 step 1); the element `e` at flattened position `p` either joins
the first existing class whose representative is value-equal to it, or opens a
new class with representative `e`, first occurrence `p`, and count 1.  Returns
the updated class list and the index of the element's class.  The backend
partitioning code is not in the excerpted source. -/
def addElem (e : Elem) (p : Nat) : List Cls → List Cls × Nat
  | [] => ([⟨e, p, 1⟩], 0)
  | c :: cs =>
    if equal c.rep e then (⟨c.rep, c.first, c.count + 1⟩ :: cs, 0)
    else
      let r := addElem e p cs
      (c :: r.1, r.2 + 1)

/-- Modelled from the spec: the equivalence partitioning pass (section 4.2
steps 1-2 and 4): fold the flattened elements, starting at position `p` with
accumulated classes `cs`, producing the final class list and the per-position
class indices.  The backend partitioning code is not in the excerpted
source. -/
def buildClasses : List Elem → Nat → List Cls → List Cls × List Nat
  | [], _, cs => (cs, [])
  | e :: xs, p, cs =>
    let r := addElem e p cs
    let rest := buildClasses xs (p + 1) r.1
    (rest.1, r.2 :: rest.2)

/-- Sort key giving the output order of classes: ascending value, with NaN
classes last, matching the docstring examples of `set.py`. -/
def sortKey : Elem → Nat × ℚ
  | .bool v => (0, if v then 1 else 0)
  | .int v => (1, (v : ℚ))
  | .inf true => (2, 0)
  | .zero _ => (3, 0)
  | .fin v => (3, v)
  | .inf false => (4, 0)
  | .nan => (5, 0)

/-- Boolean comparison of classes by the sort key of their representatives. -/
def keyLe (a b : Cls) : Bool :=
  (sortKey a.rep).1 < (sortKey b.rep).1 ||
    ((sortKey a.rep).1 == (sortKey b.rep).1 &&
      decide ((sortKey a.rep).2 ≤ (sortKey b.rep).2))

/-- Result of `unique_all`: the four derived arrays of spec section 3
(the engine works on the flattened input; `inverse_indices` is reshaped to the
input's shape by the caller-facing wrapper). -/
structure UniqueAllResult where
  values : List Elem
  indices : List Nat
  inverse_indices : List Nat
  counts : List Nat
deriving DecidableEq

/-- The classes produced by partitioning the whole flattened input, in first
occurrence order. -/
def classesOf (x : List Elem) : List Cls :=
  (buildClasses x 0 []).1

/-- Per-position class indices into `classesOf x` (first occurrence order),
before the classes are reordered for output. -/
def rawInverse (x : List Elem) : List Nat :=
  (buildClasses x 0 []).2

/-- The output order of the classes: the indices `0, ..., k-1` into
`classesOf x` sorted by the representatives' sort key. -/
def classOrder (x : List Elem) : List Nat :=
  List.insertionSort
    (fun i j => keyLe ((classesOf x).getD i default) ((classesOf x).getD j default) = true)
    (List.range (classesOf x).length)

/-- Modelled from the spec: the uniqueness engine behind `unique_all`
(section 4.2, steps 1-4): partition the flattened input into classes, order
the classes (ascending representative, NaN last, per the `set.py` docstring
examples), and materialize `values`, `indices`, `inverse_indices`, `counts`.
The backend `unique_all` implementation reached through
`ivy.current_backend(x).unique_all` is not in the excerpted source. -/
def uniqueAll (x : List Elem) : UniqueAllResult :=
  { values := (classOrder x).map fun j => (((classesOf x)).getD j default).rep
    indices := (classOrder x).map fun j => (((classesOf x)).getD j default).first
    inverse_indices := (rawInverse x).map fun j => List.indexOf j (classOrder x)
    counts := (classOrder x).map fun j => (((classesOf x)).getD j default).count }

/-- Modelled from the spec: `unique_values` as a projection of the shared
ResultSet (section 4.3); the backend implementation is not in the excerpted
source. -/
def uniqueValues (x : List Elem) : List Elem :=
  (uniqueAll x).values

/-- Modelled from the spec: `unique_counts` as a projection of the shared
ResultSet (section 4.3); the backend implementation is not in the excerpted
source. -/
def uniqueCounts (x : List Elem) : List Elem × List Nat :=
  ((uniqueAll x).values, (uniqueAll x).counts)

/-- Modelled from the spec: `unique_inverse` as a projection of the shared
ResultSet (section 4.3); the backend implementation is not in the excerpted
source. -/
def uniqueInverse (x : List Elem) : List Elem × List Nat :=
  ((uniqueAll x).values, (uniqueAll x).inverse_indices)

/-! Properties of the value-equality predicate. -/

theorem equal_eq_or_zero {a b : Elem} (h : equal a b = true) :
    a = b ∨ (a.isZero = true ∧ b.isZero = true) := by
  cases a <;> cases b <;> simp_all [equal, Elem.isZero]

theorem equal_nan_right (a : Elem) : equal a Elem.nan = false := by
  cases a <;> rfl

theorem equal_zero_right (s : Bool) (r : Elem) : equal r (Elem.zero s) = r.isZero := by
  cases r <;> rfl

theorem equal_not_nan_left {r e : Elem} (h : equal r e = true) : r.isNaN = false := by
  cases r <;> simp_all [equal, Elem.isNaN]

theorem equal_zero_left_of_nonzero {r e : Elem} (he : e.isZero = false)
    (hr : r.isZero = true) : equal r e = false := by
  cases r <;> cases e <;> simp_all [equal, Elem.isZero]

/-! Structural lemmas about a single grouping step. -/

theorem addElem_shape (e : Elem) (p : Nat) (cs : List Cls) :
    ((addElem e p cs).2 < cs.length ∧ (addElem e p cs).1.length = cs.length)
    ∨ ((addElem e p cs).1 = cs ++ [⟨e, p, 1⟩] ∧ (addElem e p cs).2 = cs.length) := by
  induction cs with
  | nil => right; simp [addElem]
  | cons c cs ih =>
    by_cases h : equal c.rep e
    · left; simp [addElem, h]
    · rcases ih with ⟨h1, h2⟩ | ⟨h1, h2⟩
      · left
        simp only [addElem, if_neg h, List.length_cons]
        omega
      · right
        simp [addElem, if_neg h, h1, h2]

theorem addElem_len_ge (e : Elem) (p : Nat) (cs : List Cls) :
    cs.length ≤ (addElem e p cs).1.length := by
  rcases addElem_shape e p cs with ⟨_, h⟩ | ⟨h, _⟩
  · omega
  · simp [h]

theorem addElem_idx_lt (e : Elem) (p : Nat) (cs : List Cls) :
    (addElem e p cs).2 < (addElem e p cs).1.length := by
  rcases addElem_shape e p cs with ⟨h1, h2⟩ | ⟨h1, h2⟩
  · omega
  · simp [h1, h2]

theorem addElem_stable (e : Elem) (p : Nat) (cs : List Cls) (i : Nat) (h : i < cs.length) :
    ((addElem e p cs).1.getD i default).rep = (cs.getD i default).rep ∧
    ((addElem e p cs).1.getD i default).first = (cs.getD i default).first := by
  induction cs generalizing i with
  | nil => simp at h
  | cons c cs ih =>
    by_cases hf : equal c.rep e
    · cases i with
      | zero => simp [addElem, hf]
      | succ i => simp [addElem, hf]
    · cases i with
      | zero => simp [addElem, hf]
      | succ i =>
        simp only [addElem, if_neg hf, List.getD_cons_succ]
        exact ih i (by simpa using h)

theorem addElem_rep (e : Elem) (p : Nat) (cs : List Cls) :
    ((addElem e p cs).1.getD (addElem e p cs).2 default).rep = e ∨
    ((((addElem e p cs).1.getD (addElem e p cs).2 default).rep.isZero = true) ∧
      e.isZero = true) := by
  induction cs with
  | nil => left; simp [addElem]
  | cons c cs ih =>
    by_cases hf : equal c.rep e
    · have hstep : addElem e p (c :: cs) = (⟨c.rep, c.first, c.count + 1⟩ :: cs, 0) := by
        simp [addElem, hf]
      rcases equal_eq_or_zero hf with h | ⟨h1, h2⟩
      · left; rw [hstep]; simpa using h
      · right; rw [hstep]; simpa using ⟨h1, h2⟩
    · simpa [addElem, hf] using ih

theorem addElem_sum (e : Elem) (p : Nat) (cs : List Cls) :
    ((addElem e p cs).1.map Cls.count).sum = (cs.map Cls.count).sum + 1 := by
  induction cs with
  | nil => simp [addElem]
  | cons c cs ih =>
    by_cases hf : equal c.rep e
    · simp only [addElem, if_neg, if_pos hf, List.map_cons, List.sum_cons]
      omega
    · simp only [addElem, if_neg hf, List.map_cons, List.sum_cons, ih]
      omega

theorem addElem_nanP (e : Elem) (p : Nat) (cs : List Cls) :
    (addElem e p cs).1.countP (fun c => c.rep.isNaN) =
      cs.countP (fun c => c.rep.isNaN) + (if e.isNaN then 1 else 0) := by
  induction cs with
  | nil => simp [addElem, List.countP_cons]
  | cons c cs ih =>
    by_cases hf : equal c.rep e
    · have hrep : c.rep.isNaN = false := equal_not_nan_left hf
      have he : e.isNaN = false := by
        cases e
        case nan => simp [equal_nan_right] at hf
        all_goals rfl
      simp [addElem, hf, List.countP_cons, hrep, he]
    · simp only [addElem, if_neg hf, List.countP_cons, ih]
      omega

theorem addElem_nan_single (e : Elem) (p : Nat) (cs : List Cls)
    (h : ∀ c ∈ cs, c.rep.isNaN = true → c.count = 1) :
    ∀ c ∈ (addElem e p cs).1, c.rep.isNaN = true → c.count = 1 := by
  induction cs with
  | nil =>
    intro c hc hn
    simp only [addElem, List.mem_singleton] at hc
    subst hc
    rfl
  | cons c0 cs ih =>
    by_cases hf : equal c0.rep e
    · intro c hc hn
      have hrep : c0.rep.isNaN = false := equal_not_nan_left hf
      simp only [addElem, if_pos hf, List.mem_cons] at hc
      rcases hc with rfl | hc
      · simp_all
      · exact h c (List.mem_cons_of_mem _ hc) hn
    · intro c hc hn
      simp only [addElem, if_neg hf, List.mem_cons] at hc
      rcases hc with rfl | hc
      · exact h c (List.mem_cons_self _ _) hn
      · exact ih (fun d hd => h d (List.mem_cons_of_mem _ hd)) c hc hn

theorem addElem_zeroP_of_zero (e : Elem) (p : Nat) (cs : List Cls)
    (he : e.isZero = true) :
    (addElem e p cs).1.countP (fun c => c.rep.isZero) =
      max 1 (cs.countP (fun c => c.rep.isZero)) := by
  obtain ⟨s, rfl⟩ : ∃ s, e = Elem.zero s := by
    cases e <;> simp_all [Elem.isZero]
  induction cs with
  | nil => simp [addElem, List.countP_cons, Elem.isZero]
  | cons c cs ih =>
    by_cases hf : equal c.rep (Elem.zero s)
    · have hz : c.rep.isZero = true := by
        rw [equal_zero_right] at hf; exact hf
      simp only [addElem, if_pos hf, List.countP_cons, hz]
      simp
    · have hz : c.rep.isZero = false := by
        rw [equal_zero_right] at hf
        exact Bool.not_eq_true _ ▸ by simpa using hf
      simp only [addElem, if_neg hf, List.countP_cons, hz, ih]
      simp

theorem addElem_zeroP_of_nonzero (e : Elem) (p : Nat) (cs : List Cls)
    (he : e.isZero = false) :
    (addElem e p cs).1.countP (fun c => c.rep.isZero) =
      cs.countP (fun c => c.rep.isZero) := by
  induction cs with
  | nil => simp [addElem, List.countP_cons, he]
  | cons c cs ih =>
    by_cases hf : equal c.rep e
    · have hz : c.rep.isZero = false := by
        by_contra hcon
        have : c.rep.isZero = true := by simpa using hcon
        rw [equal_zero_left_of_nonzero he this] at hf
        exact Bool.false_ne_true hf
      simp [addElem, hf, List.countP_cons, hz]
    · simp [addElem, hf, List.countP_cons, ih]

theorem addElem_zero_sum (e : Elem) (p : Nat) (cs : List Cls) :
    (((addElem e p cs).1.filter (fun c => c.rep.isZero)).map Cls.count).sum =
      ((cs.filter (fun c => c.rep.isZero)).map Cls.count).sum +
        (if e.isZero then 1 else 0) := by
  induction cs with
  | nil =>
    by_cases he : e.isZero = true
    · simp [addElem, List.filter_cons, he]
    · simp [addElem, List.filter_cons, Bool.not_eq_true _ ▸ he]
  | cons c cs ih =>
    by_cases hf : equal c.rep e
    · by_cases he : e.isZero = true
      · have hz : c.rep.isZero = true := by
          obtain ⟨s, rfl⟩ : ∃ s, e = Elem.zero s := by
            cases e <;> simp_all [Elem.isZero]
          rw [equal_zero_right] at hf; exact hf
        simp [addElem, hf, List.filter_cons, hz, he]
        omega
      · have he' : e.isZero = false := by simpa using he
        have hz : c.rep.isZero = false := by
          by_contra hcon
          have : c.rep.isZero = true := by simpa using hcon
          rw [equal_zero_left_of_nonzero he' this] at hf
          exact Bool.false_ne_true hf
        simp [addElem, hf, List.filter_cons, hz, he']
    · simp only [addElem, if_neg hf, List.filter_cons]
      by_cases hz : c.rep.isZero = true
      · simp [hz, ih]
        omega
      · simp [hz, ih]

theorem addElem_first_lt (e : Elem) (p : Nat) (cs : List Cls)
    (h : ∀ c ∈ cs, c.first < p) :
    ∀ c ∈ (addElem e p cs).1, c.first < p + 1 := by
  induction cs with
  | nil =>
    intro c hc
    simp only [addElem, List.mem_singleton] at hc
    subst hc
    simp
  | cons c0 cs ih =>
    by_cases hf : equal c0.rep e
    · intro c hc
      simp only [addElem, if_pos hf, List.mem_cons] at hc
      rcases hc with rfl | hc
      · have := h c0 (List.mem_cons_self _ _)
        simpa using Nat.lt_succ_of_lt this
      · exact Nat.lt_succ_of_lt (h c (List.mem_cons_of_mem _ hc))
    · intro c hc
      simp only [addElem, if_neg hf, List.mem_cons] at hc
      rcases hc with rfl | hc
      · exact Nat.lt_succ_of_lt (h c (List.mem_cons_self _ _))
      · exact ih (fun d hd => h d (List.mem_cons_of_mem _ hd)) c hc

/-! Structural lemmas about the whole partitioning pass. -/

theorem buildClasses_len_mono (xs : List Elem) (p : Nat) (cs : List Cls) :
    cs.length ≤ (buildClasses xs p cs).1.length := by
  induction xs generalizing p cs with
  | nil => simp [buildClasses]
  | cons e xs ih =>
    calc cs.length ≤ (addElem e p cs).1.length := addElem_len_ge e p cs
    _ ≤ (buildClasses (e :: xs) p cs).1.length := ih (p + 1) (addElem e p cs).1

theorem buildClasses_stable (xs : List Elem) (p : Nat) (cs : List Cls) (i : Nat)
    (h : i < cs.length) :
    ((buildClasses xs p cs).1.getD i default).rep = (cs.getD i default).rep ∧
    ((buildClasses xs p cs).1.getD i default).first = (cs.getD i default).first := by
  induction xs generalizing p cs with
  | nil => simp [buildClasses]
  | cons e xs ih =>
    have h1 := addElem_stable e p cs i h
    have h2 := ih (p + 1) (addElem e p cs).1 (lt_of_lt_of_le h (addElem_len_ge e p cs))
    exact ⟨h2.1.trans h1.1, h2.2.trans h1.2⟩

theorem buildClasses_inv_length (xs : List Elem) (p : Nat) (cs : List Cls) :
    (buildClasses xs p cs).2.length = xs.length := by
  induction xs generalizing p cs with
  | nil => simp [buildClasses]
  | cons e xs ih => simp [buildClasses, ih]

theorem buildClasses_inv_spec (xs : List Elem) (p : Nat) (cs : List Cls) (q : Nat)
    (hq : q < xs.length) :
    (buildClasses xs p cs).2.getD q 0 < (buildClasses xs p cs).1.length ∧
    (((buildClasses xs p cs).1.getD ((buildClasses xs p cs).2.getD q 0) default).rep
        = xs.getD q Elem.nan ∨
      (((buildClasses xs p cs).1.getD ((buildClasses xs p cs).2.getD q 0) default).rep.isZero
          = true ∧ (xs.getD q Elem.nan).isZero = true)) := by
  induction xs generalizing p cs q with
  | nil => simp at hq
  | cons e xs ih =>
    cases q with
    | zero =>
      have hidx := addElem_idx_lt e p cs
      have hmono := buildClasses_len_mono xs (p + 1) (addElem e p cs).1
      have hstab := buildClasses_stable xs (p + 1) (addElem e p cs).1
        (addElem e p cs).2 hidx
      have hrep := addElem_rep e p cs
      constructor
      · simpa [buildClasses] using lt_of_lt_of_le hidx hmono
      · simp only [buildClasses, List.getD_cons_zero]
        rw [hstab.1]
        exact hrep
    | succ q =>
      have := ih (p + 1) (addElem e p cs).1 q (by simpa using hq)
      simpa [buildClasses] using this

theorem buildClasses_sum (xs : List Elem) (p : Nat) (cs : List Cls) :
    ((buildClasses xs p cs).1.map Cls.count).sum = (cs.map Cls.count).sum + xs.length := by
  induction xs generalizing p cs with
  | nil => simp [buildClasses]
  | cons e xs ih =>
    have h1 := addElem_sum e p cs
    have h2 := ih (p + 1) (addElem e p cs).1
    simp only [buildClasses, h2, h1, List.length_cons]
    omega

theorem buildClasses_nanP (xs : List Elem) (p : Nat) (cs : List Cls) :
    (buildClasses xs p cs).1.countP (fun c => c.rep.isNaN) =
      cs.countP (fun c => c.rep.isNaN) + xs.countP Elem.isNaN := by
  induction xs generalizing p cs with
  | nil => simp [buildClasses]
  | cons e xs ih =>
    have h1 := addElem_nanP e p cs
    have h2 := ih (p + 1) (addElem e p cs).1
    simp only [buildClasses, h2, h1, List.countP_cons]
    omega

theorem buildClasses_nan_single (xs : List Elem) (p : Nat) (cs : List Cls)
    (h : ∀ c ∈ cs, c.rep.isNaN = true → c.count = 1) :
    ∀ c ∈ (buildClasses xs p cs).1, c.rep.isNaN = true → c.count = 1 := by
  induction xs generalizing p cs with
  | nil => simpa [buildClasses] using h
  | cons e xs ih =>
    exact ih (p + 1) (addElem e p cs).1 (addElem_nan_single e p cs h)

theorem buildClasses_first_lt (xs : List Elem) (p : Nat) (cs : List Cls)
    (h : ∀ c ∈ cs, c.first < p) :
    ∀ c ∈ (buildClasses xs p cs).1, c.first < p + xs.length := by
  induction xs generalizing p cs with
  | nil => simpa [buildClasses] using fun c hc => Nat.lt_of_lt_of_le (h c hc) (Nat.le_refl p)
  | cons e xs ih =>
    intro c hc
    have := ih (p + 1) (addElem e p cs).1 (addElem_first_lt e p cs h) c hc
    simp only [List.length_cons]
    omega

theorem buildClasses_zeroP (xs : List Elem) (p : Nat) (cs : List Cls) :
    (buildClasses xs p cs).1.countP (fun c => c.rep.isZero) =
      if xs.countP Elem.isZero = 0 then cs.countP (fun c => c.rep.isZero)
      else max 1 (cs.countP (fun c => c.rep.isZero)) := by
  induction xs generalizing p cs with
  | nil => simp [buildClasses]
  | cons e xs ih =>
    have h2 := ih (p + 1) (addElem e p cs).1
    have hgoal : (buildClasses (e :: xs) p cs).1 =
        (buildClasses xs (p + 1) (addElem e p cs).1).1 := rfl
    by_cases he : e.isZero = true
    · have h1 := addElem_zeroP_of_zero e p cs he
      rw [hgoal, h2, h1]
      by_cases hx : xs.countP Elem.isZero = 0
      · simp [hx, List.countP_cons, he]
      · simp [hx, List.countP_cons, he]
    · have he' : e.isZero = false := by simpa using he
      have h1 := addElem_zeroP_of_nonzero e p cs he'
      rw [hgoal, h2, h1]
      by_cases hx : xs.countP Elem.isZero = 0 <;>
        simp [hx, List.countP_cons, he']

theorem buildClasses_zero_sum (xs : List Elem) (p : Nat) (cs : List Cls) :
    (((buildClasses xs p cs).1.filter (fun c => c.rep.isZero)).map Cls.count).sum =
      ((cs.filter (fun c => c.rep.isZero)).map Cls.count).sum + xs.countP Elem.isZero := by
  induction xs generalizing p cs with
  | nil => simp [buildClasses]
  | cons e xs ih =>
    have h1 := addElem_zero_sum e p cs
    have h2 := ih (p + 1) (addElem e p cs).1
    simp only [buildClasses, h2, h1, List.countP_cons]
    by_cases he : e.isZero = true
    · simp only [he, if_pos rfl]
      omega
    · simp [he]

theorem buildClasses_roundtrip (xs : List Elem) (p : Nat) (cs : List Cls) :
    ∀ i, cs.length ≤ i → i < (buildClasses xs p cs).1.length →
      p ≤ ((buildClasses xs p cs).1.getD i default).first ∧
      ((buildClasses xs p cs).1.getD i default).first - p < xs.length ∧
      (buildClasses xs p cs).2.getD
        (((buildClasses xs p cs).1.getD i default).first - p) 0 = i := by
  induction xs generalizing p cs with
  | nil =>
    intro i h1 h2
    simp only [buildClasses] at h2
    omega
  | cons e xs ih =>
    intro i h1 h2
    have hcsF : (buildClasses (e :: xs) p cs).1 =
        (buildClasses xs (p + 1) (addElem e p cs).1).1 := rfl
    have hinv : (buildClasses (e :: xs) p cs).2 =
        (addElem e p cs).2 :: (buildClasses xs (p + 1) (addElem e p cs).1).2 := rfl
    by_cases hlen : (addElem e p cs).1.length ≤ i
    · have h3 := ih (p + 1) (addElem e p cs).1 i hlen (by rw [hcsF] at h2; exact h2)
      obtain ⟨ha, hb, hc⟩ := h3
      rw [hcsF, hinv]
      refine ⟨by omega, by simp only [List.length_cons]; omega, ?_⟩
      have hsub : ((buildClasses xs (p + 1) (addElem e p cs).1).1.getD i default).first - p =
          (((buildClasses xs (p + 1) (addElem e p cs).1).1.getD i default).first - (p + 1)) + 1 := by
        omega
      rw [hsub, List.getD_cons_succ]
      exact hc
    · push_neg at hlen
      rcases addElem_shape e p cs with ⟨hj, hl⟩ | ⟨happ, hidx⟩
      · omega
      · have hlen' : (addElem e p cs).1.length = cs.length + 1 := by simp [happ]
        have hi : i = cs.length := by omega
        have hstab := buildClasses_stable xs (p + 1) (addElem e p cs).1 i (by omega)
        have hfirst : ((addElem e p cs).1.getD i default).first = p := by
          rw [happ, hi, List.getD_eq_getElem _ _ (by simp)]
          simp
        rw [hcsF, hinv, hstab.2, hfirst]
        have hpp : p - p = 0 := Nat.sub_self p
        rw [hpp]
        exact ⟨Nat.le_refl p, by simp only [List.length_cons]; omega,
          by simp [hidx, hi]⟩

/-! Lemmas about the output order of the classes. -/

theorem classOrder_perm (x : List Elem) :
    (classOrder x).Perm (List.range (classesOf x).length) :=
  List.perm_insertionSort _ _

theorem classOrder_length (x : List Elem) :
    (classOrder x).length = (classesOf x).length := by
  rw [(classOrder_perm x).length_eq, List.length_range]

theorem classOrder_nodup (x : List Elem) : (classOrder x).Nodup :=
  (classOrder_perm x).symm.nodup (List.nodup_range _)

theorem classOrder_mem (x : List Elem) (j : Nat) :
    j ∈ classOrder x ↔ j < (classesOf x).length := by
  rw [(classOrder_perm x).mem_iff, List.mem_range]

theorem range_map_getD {α β : Type _} [Inhabited α] (l : List α) (f : α → β) :
    (List.range l.length).map (fun i => f (l.getD i default)) = l.map f := by
  induction l with
  | nil => simp
  | cons a l ih =>
    have hcomp : ((fun i => f ((a :: l).getD i default)) ∘ Nat.succ) =
        fun i => f (l.getD i default) := by
      funext i
      simp
    rw [List.length_cons, List.range_succ_eq_map, List.map_cons, List.map_map, hcomp, ih]
    simp

theorem getD_map_lt {β : Type _} (l : List Nat) (g : Nat → β) (d : β) (i : Nat)
    (h : i < l.length) : (l.map g).getD i d = g (l.getD i 0) := by
  rw [List.getD_eq_getElem _ _ (by simpa using h), List.getElem_map,
    List.getD_eq_getElem _ _ h]

theorem order_map_indexOf_getD {β : Type _} (x : List Elem) (g : Nat → β) (d : β) (j : Nat)
    (hj : j < (classesOf x).length) :
    ((classOrder x).map g).getD (List.indexOf j (classOrder x)) d = g j := by
  have hmem : j ∈ classOrder x := (classOrder_mem x j).mpr hj
  have hidx : List.indexOf j (classOrder x) < (classOrder x).length :=
    List.indexOf_lt_length.mpr hmem
  rw [getD_map_lt _ _ _ _ hidx, List.getD_eq_getElem _ _ hidx]
  exact congrArg g (List.getElem_indexOf hidx)

theorem countP_le_one_getD_unique {α : Type _} [Inhabited α] (q : α → Bool) (l : List α)
    (hle : l.countP q ≤ 1) (i j : Nat) (hi : i < l.length) (hj : j < l.length)
    (hqi : q (l.getD i default) = true) (hqj : q (l.getD j default) = true) : i = j := by
  induction l generalizing i j with
  | nil => simp at hi
  | cons a l ih =>
    rw [List.countP_cons] at hle
    cases i with
    | zero =>
      cases j with
      | zero => rfl
      | succ j =>
        exfalso
        simp only [List.getD_cons_zero] at hqi
        simp only [List.getD_cons_succ] at hqj
        have h0 : l.countP q = 0 := by
          rw [hqi, if_pos rfl] at hle
          omega
        have hm : l.getD j default ∈ l := by
          rw [List.getD_eq_getElem _ _ (by simpa using hj)]
          exact List.getElem_mem _
        exact List.countP_eq_zero.mp h0 _ hm hqj
    | succ i =>
      cases j with
      | zero =>
        exfalso
        simp only [List.getD_cons_zero] at hqj
        simp only [List.getD_cons_succ] at hqi
        have h0 : l.countP q = 0 := by
          rw [hqj, if_pos rfl] at hle
          omega
        have hm : l.getD i default ∈ l := by
          rw [List.getD_eq_getElem _ _ (by simpa using hi)]
          exact List.getElem_mem _
        exact List.countP_eq_zero.mp h0 _ hm hqi
      | succ j =>
        have := ih (by omega) i j (by simpa using hi) (by simpa using hj)
          (by simpa using hqi) (by simpa using hqj)
        omega

theorem classesOf_eq (x : List Elem) : classesOf x = (buildClasses x 0 []).1 := rfl

theorem rawInverse_eq (x : List Elem) : rawInverse x = (buildClasses x 0 []).2 := rfl

theorem rawInverse_length (x : List Elem) : (rawInverse x).length = x.length :=
  buildClasses_inv_length x 0 []

theorem rawInverse_spec (x : List Elem) (p : Nat) (hp : p < x.length) :
    (rawInverse x).getD p 0 < (classesOf x).length ∧
    (((classesOf x).getD ((rawInverse x).getD p 0) default).rep = x.getD p Elem.nan ∨
      (((classesOf x).getD ((rawInverse x).getD p 0) default).rep.isZero = true ∧
        (x.getD p Elem.nan).isZero = true)) := by
  rw [classesOf_eq, rawInverse_eq]
  exact buildClasses_inv_spec x 0 [] p hp

theorem inverse_getD (x : List Elem) (p : Nat) (hp : p < x.length) :
    (uniqueAll x).inverse_indices.getD p 0 =
      List.indexOf ((rawInverse x).getD p 0) (classOrder x) := by
  show ((rawInverse x).map (fun j => List.indexOf j (classOrder x))).getD p 0 = _
  rw [getD_map_lt _ _ _ _ (by rw [rawInverse_length]; exact hp)]

theorem values_getD_indexOf (x : List Elem) (j : Nat) (hj : j < (classesOf x).length) :
    (uniqueAll x).values.getD (List.indexOf j (classOrder x)) Elem.nan =
      ((classesOf x).getD j default).rep :=
  order_map_indexOf_getD x (fun j => ((classesOf x).getD j default).rep) Elem.nan j hj

theorem counts_getD_indexOf (x : List Elem) (j : Nat) (hj : j < (classesOf x).length) :
    (uniqueAll x).counts.getD (List.indexOf j (classOrder x)) 0 =
      ((classesOf x).getD j default).count :=
  order_map_indexOf_getD x (fun j => ((classesOf x).getD j default).count) 0 j hj

/-! The claims. -/

/-- C1: for every array and every flattened position whose element is neither
NaN nor a signed zero, indexing `values` by the inverse index of that position
reconstructs the element exactly; at signed-zero positions the reconstructed
value is still a zero (possibly of the other sign); and `inverse_indices` has
one entry per flattened input element (its shape is the input's shape). -/
theorem unique_all_reconstructs (x : List Elem) :
    (uniqueAll x).inverse_indices.length = x.length ∧
    (∀ p, p < x.length → (x.getD p Elem.nan).isNaN = false →
      (x.getD p Elem.nan).isZero = false →
      (uniqueAll x).values.getD ((uniqueAll x).inverse_indices.getD p 0) Elem.nan =
        x.getD p Elem.nan) ∧
    (∀ p, p < x.length → (x.getD p Elem.nan).isZero = true →
      ((uniqueAll x).values.getD ((uniqueAll x).inverse_indices.getD p 0) Elem.nan).isZero
        = true) := by
  refine ⟨?_, ?_, ?_⟩
  · show ((rawInverse x).map _).length = x.length
    rw [List.length_map, rawInverse_length]
  · intro p hp hnan hz
    obtain ⟨hj, hrep | ⟨hz1, hz2⟩⟩ := rawInverse_spec x p hp
    · rw [inverse_getD x p hp, values_getD_indexOf x _ hj, hrep]
    · rw [hz] at hz2
      exact absurd hz2 Bool.false_ne_true
  · intro p hp hz
    obtain ⟨hj, hrep | ⟨hz1, hz2⟩⟩ := rawInverse_spec x p hp
    · rw [inverse_getD x p hp, values_getD_indexOf x _ hj, hrep]
      exact hz
    · rw [inverse_getD x p hp, values_getD_indexOf x _ hj]
      exact hz1

/-- Witness for C1 at the concrete input `[5, -0.0, +0.0]`: position 0 holds
the integer 5, which is neither NaN nor zero, and reconstructs exactly;
position 1 holds a signed zero and reconstructs to a zero. -/
theorem unique_all_reconstructs_witness :
    ((uniqueAll [Elem.int 5, Elem.zero true, Elem.zero false]).values.getD
        ((uniqueAll [Elem.int 5, Elem.zero true, Elem.zero false]).inverse_indices.getD 0 0)
        Elem.nan = Elem.int 5) ∧
    ((uniqueAll [Elem.int 5, Elem.zero true, Elem.zero false]).values.getD
        ((uniqueAll [Elem.int 5, Elem.zero true, Elem.zero false]).inverse_indices.getD 1 0)
        Elem.nan).isZero = true :=
  ⟨(unique_all_reconstructs [Elem.int 5, Elem.zero true, Elem.zero false]).2.1 0
      (by decide) (by decide) (by decide),
    (unique_all_reconstructs [Elem.int 5, Elem.zero true, Elem.zero false]).2.2 1
      (by decide) (by decide)⟩

/-- C2: the counts returned by `unique_counts` (and `unique_all`) sum to the
number of elements of the flattened input. -/
theorem unique_counts_sum (x : List Elem) :
    (uniqueCounts x).2.sum = x.length ∧ (uniqueAll x).counts.sum = x.length := by
  have h : (uniqueAll x).counts.sum = x.length := by
    have hperm : ((classOrder x).map (fun j => ((classesOf x).getD j default).count)).Perm
        ((List.range (classesOf x).length).map
          (fun j => ((classesOf x).getD j default).count)) :=
      (classOrder_perm x).map _
    have hsum2 : ((classesOf x).map Cls.count).sum = x.length := by
      rw [classesOf_eq]
      simpa using buildClasses_sum x 0 []
    calc (uniqueAll x).counts.sum
        = ((List.range (classesOf x).length).map
            (fun j => ((classesOf x).getD j default).count)).sum := hperm.sum_eq
      _ = ((classesOf x).map Cls.count).sum := by
          rw [range_map_getD (classesOf x) Cls.count]
      _ = x.length := hsum2
  exact ⟨h, h⟩

/-- C6: on the empty input all four operations return empty outputs and no
error occurs (the functions are total). -/
theorem unique_ops_empty :
    uniqueAll [] = ⟨[], [], [], []⟩ ∧ uniqueValues [] = [] ∧
      uniqueCounts [] = ([], []) ∧ uniqueInverse [] = ([], []) := by
  decide

/-- C8: on the input `[4,5,3,2,4,1,3]`, `unique_inverse` returns
`values = [1,2,3,4,5]` and `inverse_indices = [3,4,2,1,3,0,2]`, as in the
docstring example of `unique_inverse` in `set.py`. -/
theorem unique_inverse_example :
    uniqueInverse [Elem.int 4, Elem.int 5, Elem.int 3, Elem.int 2,
        Elem.int 4, Elem.int 1, Elem.int 3] =
      ([Elem.int 1, Elem.int 2, Elem.int 3, Elem.int 4, Elem.int 5],
        [3, 4, 2, 1, 3, 0, 2]) := by
  decide

/-- C3: an input with `k` NaN elements yields exactly `k` classes whose
representative is NaN, and every NaN-representative class has count exactly 1
(NaNs are pairwise distinct even when bit-identical). -/
theorem unique_all_nan_classes (x : List Elem) :
    (uniqueAll x).values.countP Elem.isNaN = x.countP Elem.isNaN ∧
    (∀ i, i < (uniqueAll x).values.length →
      ((uniqueAll x).values.getD i Elem.nan).isNaN = true →
      (uniqueAll x).counts.getD i 0 = 1) := by
  constructor
  · have hperm : ((classOrder x).map (fun j => ((classesOf x).getD j default).rep)).Perm
        ((List.range (classesOf x).length).map
          (fun j => ((classesOf x).getD j default).rep)) :=
      (classOrder_perm x).map _
    calc (uniqueAll x).values.countP Elem.isNaN
        = ((List.range (classesOf x).length).map
            (fun j => ((classesOf x).getD j default).rep)).countP Elem.isNaN :=
          hperm.countP_eq _
      _ = ((classesOf x).map Cls.rep).countP Elem.isNaN := by
          rw [range_map_getD (classesOf x) Cls.rep]
      _ = (classesOf x).countP (fun c => c.rep.isNaN) := by
          rw [List.countP_map]
          rfl
      _ = x.countP Elem.isNaN := by
          rw [classesOf_eq]
          simpa using buildClasses_nanP x 0 []
  · intro i hi hnan
    have hi' : i < (classOrder x).length := by
      have hlen : (uniqueAll x).values.length = (classOrder x).length :=
        List.length_map _ _
      omega
    have hval : (uniqueAll x).values.getD i Elem.nan =
        ((classesOf x).getD ((classOrder x).getD i 0) default).rep :=
      getD_map_lt _ _ _ _ hi'
    have hcnt : (uniqueAll x).counts.getD i 0 =
        ((classesOf x).getD ((classOrder x).getD i 0) default).count :=
      getD_map_lt _ _ _ _ hi'
    have hjmem : (classOrder x).getD i 0 ∈ classOrder x := by
      rw [List.getD_eq_getElem _ _ hi']
      exact List.getElem_mem _
    have hj : (classOrder x).getD i 0 < (classesOf x).length :=
      (classOrder_mem x _).mp hjmem
    have hcmem : (classesOf x).getD ((classOrder x).getD i 0) default ∈ classesOf x := by
      rw [List.getD_eq_getElem _ _ hj]
      exact List.getElem_mem _
    rw [hval] at hnan
    rw [hcnt]
    rw [classesOf_eq] at hcmem
    exact buildClasses_nan_single x 0 [] (by simp) _ hcmem hnan

/-- Witness for C3 at `[NaN, NaN, 1.0]`: the NaN count of values equals the
NaN count of the input (two), and the NaN class at output index 1 has
count 1. -/
theorem unique_all_nan_classes_witness :
    ((uniqueAll [Elem.nan, Elem.nan, Elem.fin 1]).values.countP Elem.isNaN =
      List.countP Elem.isNaN [Elem.nan, Elem.nan, Elem.fin 1]) ∧
    (uniqueAll [Elem.nan, Elem.nan, Elem.fin 1]).counts.getD 1 0 = 1 :=
  ⟨(unique_all_nan_classes [Elem.nan, Elem.nan, Elem.fin 1]).1,
    (unique_all_nan_classes [Elem.nan, Elem.nan, Elem.fin 1]).2 1
      (by decide) (by decide)⟩

/-- C4: when the input contains both `+0.0` and `-0.0`, exactly one class
represents zero; its count is the total number of zero elements of either
sign; and all zero positions are mapped to the same class (hence reconstruct
to the same representative sign within the call). -/
theorem unique_all_zero_class (x : List Elem)
    (h0 : Elem.zero false ∈ x) (h1 : Elem.zero true ∈ x) :
    (uniqueAll x).values.countP Elem.isZero = 1 ∧
    (∀ i, i < (uniqueAll x).values.length →
      ((uniqueAll x).values.getD i Elem.nan).isZero = true →
      (uniqueAll x).counts.getD i 0 = x.countP Elem.isZero) ∧
    (∀ p q, p < x.length → q < x.length →
      (x.getD p Elem.nan).isZero = true → (x.getD q Elem.nan).isZero = true →
      (uniqueAll x).inverse_indices.getD p 0 =
        (uniqueAll x).inverse_indices.getD q 0) := by
  have hpos : x.countP Elem.isZero ≠ 0 := by
    have : 0 < x.countP Elem.isZero :=
      List.countP_pos_iff.mpr ⟨Elem.zero false, h0, by decide⟩
    omega
  have hcount1 : (classesOf x).countP (fun c => c.rep.isZero) = 1 := by
    rw [classesOf_eq]
    have hz := buildClasses_zeroP x 0 []
    rw [if_neg hpos] at hz
    simpa using hz
  have hfiltersum : (((classesOf x).filter (fun c => c.rep.isZero)).map Cls.count).sum =
      x.countP Elem.isZero := by
    rw [classesOf_eq]
    simpa using buildClasses_zero_sum x 0 []
  have hlen1 : ((classesOf x).filter (fun c => c.rep.isZero)).length = 1 := by
    rw [← List.countP_eq_length_filter]
    exact hcount1
  obtain ⟨c0, hc0⟩ := List.length_eq_one.mp hlen1
  have hc0count : c0.count = x.countP Elem.isZero := by
    rw [hc0] at hfiltersum
    simpa using hfiltersum
  refine ⟨?_, ?_, ?_⟩
  · have hperm : ((classOrder x).map (fun j => ((classesOf x).getD j default).rep)).Perm
        ((List.range (classesOf x).length).map
          (fun j => ((classesOf x).getD j default).rep)) :=
      (classOrder_perm x).map _
    calc (uniqueAll x).values.countP Elem.isZero
        = ((List.range (classesOf x).length).map
            (fun j => ((classesOf x).getD j default).rep)).countP Elem.isZero :=
          hperm.countP_eq _
      _ = ((classesOf x).map Cls.rep).countP Elem.isZero := by
          rw [range_map_getD (classesOf x) Cls.rep]
      _ = (classesOf x).countP (fun c => c.rep.isZero) := by
          rw [List.countP_map]
          rfl
      _ = 1 := hcount1
  · intro i hi hz
    have hi' : i < (classOrder x).length := by
      have hlen : (uniqueAll x).values.length = (classOrder x).length :=
        List.length_map _ _
      omega
    have hval : (uniqueAll x).values.getD i Elem.nan =
        ((classesOf x).getD ((classOrder x).getD i 0) default).rep :=
      getD_map_lt _ _ _ _ hi'
    have hcnt : (uniqueAll x).counts.getD i 0 =
        ((classesOf x).getD ((classOrder x).getD i 0) default).count :=
      getD_map_lt _ _ _ _ hi'
    have hjmem : (classOrder x).getD i 0 ∈ classOrder x := by
      rw [List.getD_eq_getElem _ _ hi']
      exact List.getElem_mem _
    have hj : (classOrder x).getD i 0 < (classesOf x).length :=
      (classOrder_mem x _).mp hjmem
    have hcmem : (classesOf x).getD ((classOrder x).getD i 0) default ∈ classesOf x := by
      rw [List.getD_eq_getElem _ _ hj]
      exact List.getElem_mem _
    rw [hval] at hz
    have hcfil : (classesOf x).getD ((classOrder x).getD i 0) default ∈
        (classesOf x).filter (fun c => c.rep.isZero) :=
      List.mem_filter.mpr ⟨hcmem, hz⟩
    rw [hc0] at hcfil
    have hceq : (classesOf x).getD ((classOrder x).getD i 0) default = c0 := by
      simpa using hcfil
    rw [hcnt, hceq, hc0count]
  · intro p q hp hq hzp hzq
    obtain ⟨hjp, hrp⟩ := rawInverse_spec x p hp
    obtain ⟨hjq, hrq⟩ := rawInverse_spec x q hq
    have hzrep_p : ((classesOf x).getD ((rawInverse x).getD p 0) default).rep.isZero
        = true := by
      rcases hrp with h | ⟨h, _⟩
      · rw [h]
        exact hzp
      · exact h
    have hzrep_q : ((classesOf x).getD ((rawInverse x).getD q 0) default).rep.isZero
        = true := by
      rcases hrq with h | ⟨h, _⟩
      · rw [h]
        exact hzq
      · exact h
    have heq := countP_le_one_getD_unique (fun c => c.rep.isZero) (classesOf x)
      (by omega) _ _ hjp hjq hzrep_p hzrep_q
    rw [inverse_getD x p hp, inverse_getD x q hq, heq]

/-- Witness for C4 at `[+0.0, 3, -0.0, +0.0]`: one zero class, its count is 3
(the number of zeros of either sign), and positions 0 and 2 (a `+0` and a
`-0`) get the same inverse index. -/
theorem unique_all_zero_class_witness :
    ((uniqueAll [Elem.zero false, Elem.int 3, Elem.zero true, Elem.zero false]).values.countP
        Elem.isZero = 1) ∧
    ((uniqueAll [Elem.zero false, Elem.int 3, Elem.zero true, Elem.zero false]).counts.getD 1 0 =
      List.countP Elem.isZero
        [Elem.zero false, Elem.int 3, Elem.zero true, Elem.zero false]) ∧
    ((uniqueAll [Elem.zero false, Elem.int 3, Elem.zero true,
        Elem.zero false]).inverse_indices.getD 0 0 =
      (uniqueAll [Elem.zero false, Elem.int 3, Elem.zero true,
        Elem.zero false]).inverse_indices.getD 2 0) :=
  ⟨(unique_all_zero_class _ (by decide) (by decide)).1,
    (unique_all_zero_class [Elem.zero false, Elem.int 3, Elem.zero true, Elem.zero false]
        (by decide) (by decide)).2.1 1 (by decide) (by decide),
    (unique_all_zero_class [Elem.zero false, Elem.int 3, Elem.zero true, Elem.zero false]
        (by decide) (by decide)).2.2 0 2 (by decide) (by decide) (by decide) (by decide)⟩

/-- C9: for every class index `i`, looking up `inverse_indices` at that
class's first-occurrence position gives back `i`: the first occurrence of
each class round-trips to its position in `values`. -/
theorem unique_all_indices_roundtrip (x : List Elem) :
    ∀ i, i < (uniqueAll x).values.length →
      (uniqueAll x).inverse_indices.getD ((uniqueAll x).indices.getD i 0) 0 = i := by
  intro i hi
  have hi' : i < (classOrder x).length := by
    have hlen : (uniqueAll x).values.length = (classOrder x).length :=
      List.length_map _ _
    omega
  have hjmem : (classOrder x).getD i 0 ∈ classOrder x := by
    rw [List.getD_eq_getElem _ _ hi']
    exact List.getElem_mem _
  have hj : (classOrder x).getD i 0 < (classesOf x).length :=
    (classOrder_mem x _).mp hjmem
  have hround := buildClasses_roundtrip x 0 [] ((classOrder x).getD i 0)
    (by simp) (by rw [← classesOf_eq]; exact hj)
  rw [← classesOf_eq, ← rawInverse_eq] at hround
  obtain ⟨-, hfb, hfr⟩ := hround
  rw [Nat.sub_zero] at hfb hfr
  have hind : (uniqueAll x).indices.getD i 0 =
      ((classesOf x).getD ((classOrder x).getD i 0) default).first :=
    getD_map_lt _ _ _ _ hi'
  rw [hind, inverse_getD x _ hfb, hfr, List.getD_eq_getElem _ _ hi']
  exact List.indexOf_getElem (classOrder_nodup x) i hi'

/-- Witness for C9 at `[7, 7, 2]`: both class indices round-trip through
`indices` and `inverse_indices`. -/
theorem unique_all_indices_roundtrip_witness :
    ((uniqueAll [Elem.int 7, Elem.int 7, Elem.int 2]).inverse_indices.getD
        ((uniqueAll [Elem.int 7, Elem.int 7, Elem.int 2]).indices.getD 0 0) 0 = 0) ∧
    ((uniqueAll [Elem.int 7, Elem.int 7, Elem.int 2]).inverse_indices.getD
        ((uniqueAll [Elem.int 7, Elem.int 7, Elem.int 2]).indices.getD 1 0) 0 = 1) :=
  ⟨unique_all_indices_roundtrip [Elem.int 7, Elem.int 7, Elem.int 2] 0 (by decide),
    unique_all_indices_roundtrip [Elem.int 7, Elem.int 7, Elem.int 2] 1 (by decide)⟩

/-- C10: every inverse index is below the number of unique values, every
first-occurrence index is below the number of flattened input elements, and
the lengths agree, so all the derived indexing is in bounds. -/
theorem unique_all_index_bounds (x : List Elem) :
    (uniqueAll x).inverse_indices.length = x.length ∧
    (uniqueAll x).indices.length = (uniqueAll x).values.length ∧
    (∀ p, p < x.length →
      (uniqueAll x).inverse_indices.getD p 0 < (uniqueAll x).values.length) ∧
    (∀ i, i < (uniqueAll x).indices.length →
      (uniqueAll x).indices.getD i 0 < x.length) := by
  have hvlen : (uniqueAll x).values.length = (classOrder x).length :=
    List.length_map _ _
  refine ⟨?_, ?_, ?_, ?_⟩
  · show ((rawInverse x).map _).length = x.length
    rw [List.length_map, rawInverse_length]
  · show ((classOrder x).map _).length = ((classOrder x).map _).length
    rw [List.length_map, List.length_map]
  · intro p hp
    obtain ⟨hj, -⟩ := rawInverse_spec x p hp
    have hmem : (rawInverse x).getD p 0 ∈ classOrder x :=
      (classOrder_mem x _).mpr hj
    have : List.indexOf ((rawInverse x).getD p 0) (classOrder x) <
        (classOrder x).length := List.indexOf_lt_length.mpr hmem
    rw [inverse_getD x p hp, hvlen]
    exact this
  · intro i hi
    have hi' : i < (classOrder x).length := by
      have : (uniqueAll x).indices.length = (classOrder x).length :=
        List.length_map _ _
      omega
    have hjmem : (classOrder x).getD i 0 ∈ classOrder x := by
      rw [List.getD_eq_getElem _ _ hi']
      exact List.getElem_mem _
    have hj : (classOrder x).getD i 0 < (classesOf x).length :=
      (classOrder_mem x _).mp hjmem
    have hcmem : (classesOf x).getD ((classOrder x).getD i 0) default ∈ classesOf x := by
      rw [List.getD_eq_getElem _ _ hj]
      exact List.getElem_mem _
    have hind : (uniqueAll x).indices.getD i 0 =
        ((classesOf x).getD ((classOrder x).getD i 0) default).first :=
      getD_map_lt _ _ _ _ hi'
    rw [classesOf_eq] at hcmem
    have := buildClasses_first_lt x 0 [] (by simp) _ hcmem
    rw [hind]
    simpa using this

/-- Witness for C10 at `[6, 6, 1]`: the inverse index at position 0 is below
the values length, and the first-occurrence index at class 0 is below the
input length. -/
theorem unique_all_index_bounds_witness :
    ((uniqueAll [Elem.int 6, Elem.int 6, Elem.int 1]).inverse_indices.getD 0 0 <
      (uniqueAll [Elem.int 6, Elem.int 6, Elem.int 1]).values.length) ∧
    ((uniqueAll [Elem.int 6, Elem.int 6, Elem.int 1]).indices.getD 0 0 <
      (List.length [Elem.int 6, Elem.int 6, Elem.int 1])) :=
  ⟨(unique_all_index_bounds [Elem.int 6, Elem.int 6, Elem.int 1]).2.2.1 0 (by decide),
    (unique_all_index_bounds [Elem.int 6, Elem.int 6, Elem.int 1]).2.2.2 0 (by decide)⟩

/-- Modelled from the spec: the element kind an input array declares; the
supported kinds are boolean, integer and float (section 4.2 failure
semantics); `other` stands for any unsupported kind.  The backend dtype
handling is not in the excerpted source. -/
inductive DType where
  | boolKind
  | intKind
  | floatKind
  | other
deriving DecidableEq

/-- Whether the element kind is one of the supported kinds. -/
def DType.supported : DType → Bool
  | .other => false
  | _ => true

/-- Modelled from the spec: the failure taxonomy of section 7.  The exception
classes themselves are not in the excerpted source. -/
inductive UniqueErr where
  | UnsupportedDtype
  | ShapeMismatch
  | DtypeMismatch
deriving DecidableEq

/-- An input array together with its declared element kind. -/
structure TaggedArr where
  dtype : DType
  data : List Elem

/-- Modelled from the spec: a caller-supplied pre-allocated output buffer
with a declared shape and dtype; in `set.py` only `unique_values` accepts one
(the `out` keyword).  The buffer handling code (the `handle_out_argument`
decorator) is not in the excerpted source. -/
structure OutBuf where
  shape : List Nat
  dtype : DType

/-- Modelled from the spec: `unique_all` with the dtype check of section 4.2
— `UnsupportedDtype` is raised before any partitioning work when the declared
kind is not boolean/integer/float, and the operation is total otherwise.  The
backend checking code is not in the excerpted source. -/
def uniqueAllChecked (x : TaggedArr) : Except UniqueErr UniqueAllResult :=
  if x.dtype.supported then .ok (uniqueAll x.data) else .error .UnsupportedDtype

/-- Modelled from the spec: `unique_values` with the dtype check; see
`uniqueAllChecked`. -/
def uniqueValuesChecked (x : TaggedArr) : Except UniqueErr (List Elem) :=
  if x.dtype.supported then .ok (uniqueValues x.data) else .error .UnsupportedDtype

/-- Modelled from the spec: `unique_counts` with the dtype check; see
`uniqueAllChecked`. -/
def uniqueCountsChecked (x : TaggedArr) : Except UniqueErr (List Elem × List Nat) :=
  if x.dtype.supported then .ok (uniqueCounts x.data) else .error .UnsupportedDtype

/-- Modelled from the spec: `unique_inverse` with the dtype check; see
`uniqueAllChecked`. -/
def uniqueInverseChecked (x : TaggedArr) : Except UniqueErr (List Elem × List Nat) :=
  if x.dtype.supported then .ok (uniqueInverse x.data) else .error .UnsupportedDtype

/-- Modelled from the spec: `unique_values` with the optional pre-allocated
output buffer (the `out` parameter, accepted only by `unique_values` among
the four entry points in `set.py`): writing into a buffer whose declared
shape is incompatible with the one-dimensional computed values array fails
with `ShapeMismatch`, one whose declared dtype differs fails with
`DtypeMismatch`, and a compatible buffer receives the values.  The decorator
implementing the `out` handling is not in the excerpted source. -/
def uniqueValuesOut (x : TaggedArr) (out : Option OutBuf) :
    Except UniqueErr (List Elem) :=
  if x.dtype.supported = false then .error .UnsupportedDtype
  else
    match out with
    | none => .ok (uniqueValues x.data)
    | some b =>
      if b.shape ≠ [(uniqueValues x.data).length] then .error .ShapeMismatch
      else if b.dtype ≠ x.dtype then .error .DtypeMismatch
      else .ok (uniqueValues x.data)

/-- C5: each of the four operations fails with `UnsupportedDtype` exactly
when the declared element kind is not boolean/integer/float; the failure is
the whole result (no partial output), and on supported kinds each operation
is total, returning its full result with no other failure mode. -/
theorem unique_ops_dtype_check (x : TaggedArr) :
    (x.dtype.supported = false →
      uniqueAllChecked x = .error .UnsupportedDtype ∧
      uniqueValuesChecked x = .error .UnsupportedDtype ∧
      uniqueCountsChecked x = .error .UnsupportedDtype ∧
      uniqueInverseChecked x = .error .UnsupportedDtype) ∧
    (x.dtype.supported = true →
      uniqueAllChecked x = .ok (uniqueAll x.data) ∧
      uniqueValuesChecked x = .ok (uniqueValues x.data) ∧
      uniqueCountsChecked x = .ok (uniqueCounts x.data) ∧
      uniqueInverseChecked x = .ok (uniqueInverse x.data)) := by
  constructor <;> intro h <;>
    simp [uniqueAllChecked, uniqueValuesChecked, uniqueCountsChecked,
      uniqueInverseChecked, h]

/-- Witness for C5: an array of unsupported kind fails with
`UnsupportedDtype`, and the same data under an integer kind succeeds. -/
theorem unique_ops_dtype_check_witness :
    uniqueAllChecked ⟨DType.other, [Elem.int 1]⟩ =
      Except.error UniqueErr.UnsupportedDtype ∧
    uniqueAllChecked ⟨DType.intKind, [Elem.int 1]⟩ =
      Except.ok (uniqueAll [Elem.int 1]) :=
  ⟨((unique_ops_dtype_check ⟨DType.other, [Elem.int 1]⟩).1 (by decide)).1,
    ((unique_ops_dtype_check ⟨DType.intKind, [Elem.int 1]⟩).2 (by decide)).1⟩

/-- C7: only `unique_values` takes the optional output buffer (in `set.py`
only its signature has the `out` parameter); a supplied buffer whose declared
shape disagrees with the computed values array fails with `ShapeMismatch`,
one whose declared dtype disagrees fails with `DtypeMismatch`, and a
compatible buffer receives the computed values. -/
theorem unique_values_out_buffer (x : TaggedArr) (b : OutBuf)
    (hs : x.dtype.supported = true) :
    (b.shape ≠ [(uniqueValues x.data).length] →
      uniqueValuesOut x (some b) = .error .ShapeMismatch) ∧
    (b.shape = [(uniqueValues x.data).length] → b.dtype ≠ x.dtype →
      uniqueValuesOut x (some b) = .error .DtypeMismatch) ∧
    (b.shape = [(uniqueValues x.data).length] → b.dtype = x.dtype →
      uniqueValuesOut x (some b) = .ok (uniqueValues x.data)) := by
  refine ⟨?_, ?_, ?_⟩
  · intro h1
    simp [uniqueValuesOut, hs, h1]
  · intro h1 h2
    simp [uniqueValuesOut, hs, h1, h2]
  · intro h1 h2
    simp [uniqueValuesOut, hs, h1, h2]

/-- Witness for C7 at `x = [2, 2]` of integer kind (computed values `[2]`,
length 1): a buffer of shape `[2]` fails with `ShapeMismatch`, a buffer of
shape `[1]` but float kind fails with `DtypeMismatch`, and a buffer of shape
`[1]` and integer kind succeeds. -/
theorem unique_values_out_buffer_witness :
    (uniqueValuesOut ⟨DType.intKind, [Elem.int 2, Elem.int 2]⟩
        (some ⟨[2], DType.intKind⟩) = Except.error UniqueErr.ShapeMismatch) ∧
    (uniqueValuesOut ⟨DType.intKind, [Elem.int 2, Elem.int 2]⟩
        (some ⟨[1], DType.floatKind⟩) = Except.error UniqueErr.DtypeMismatch) ∧
    (uniqueValuesOut ⟨DType.intKind, [Elem.int 2, Elem.int 2]⟩
        (some ⟨[1], DType.intKind⟩) =
      Except.ok (uniqueValues [Elem.int 2, Elem.int 2])) :=
  ⟨(unique_values_out_buffer ⟨DType.intKind, [Elem.int 2, Elem.int 2]⟩
        ⟨[2], DType.intKind⟩ (by decide)).1 (by decide),
    (unique_values_out_buffer ⟨DType.intKind, [Elem.int 2, Elem.int 2]⟩
        ⟨[1], DType.floatKind⟩ (by decide)).2.1 (by decide) (by decide),
    (unique_values_out_buffer ⟨DType.intKind, [Elem.int 2, Elem.int 2]⟩
        ⟨[1], DType.intKind⟩ (by decide)).2.2 (by decide) (by decide)⟩

end Ivy
